import Mathlib

/-!
Verification of the admission-controlled conversion queue of the
pptx-to-pdf converter service.

The development shallowly embeds `src/server/services/queue.ts`
(class `ConversionQueue`) and the relevant part of
`src/server/services/converter.ts` (`convertFileDirect`, used as an
opaque per-file success oracle).  Filesystem paths are modelled as
lists of path components; `path.join` including its `..` resolution is
modelled by `joinPath`.  Job ids (uuidv4 in the source) are modelled
as naturals issued by a fresh counter, rendered in decimal where the
source interpolates the uuid into the workspace directory name.

The asynchronous behaviour of the scheduler is modelled as a labelled
transition system: `Event.enqueue` is a call of `ConversionQueue.enqueue`,
`Event.finish` is the completion of a job body `_run` (with a per-file
conversion oracle) together with the `.finally` handler
(decrement `running`, drain via `_scheduleNext`), `Event.finishExn` is the
completion of `_run` through its `catch` branch, and `Event.cleanup` is a
call of `ConversionQueue.cleanup`.
-/

namespace PptxQueue

/-! ## Path model

Paths are lists of components.  `splitComps` splits a file name on the
path separator and `normalizeComps` resolves `.`, `..` and empty
components the way Node's `path.join` normalisation does. -/

/-- Splits a character list on the path separator. -/
def splitCompsAux : List Char → List Char → List String
  | [], acc => [String.mk acc.reverse]
  | c :: rest, acc =>
    if c = '/' then String.mk acc.reverse :: splitCompsAux rest []
    else splitCompsAux rest (c :: acc)

/-- Splits a file name (a JS string) into path components. -/
def splitComps (name : String) : List String :=
  splitCompsAux name.data []

/-- One step of path normalisation: drop empty and `.` components,
let `..` remove the previous component. -/
def normStep (acc : List String) (c : String) : List String :=
  if c = "" ∨ c = "." then acc
  else if c = ".." then acc.dropLast
  else acc ++ [c]

/-- Resolves `.` and `..` components, as Node's `path.join` does after
concatenating its arguments. -/
def normalizeComps (cs : List String) : List String :=
  cs.foldl normStep []

/-- Model of `path.join(dir, name)` for an already normalised `dir`. -/
def joinPath (dir : List String) (name : String) : List String :=
  normalizeComps (dir ++ splitComps name)

/-- Boolean test that `d` is a component-wise prefix of `p`, i.e. that the
path `p` lies at or below the directory `d`. -/
def hasPrefixComps : List String → List String → Bool
  | [], _ => true
  | _ :: _, [] => false
  | d :: ds, p :: ps => decide (d = p) && hasPrefixComps ds ps

/-- Two directories overlap when one contains the other (or they are equal). -/
def dirsOverlap (d1 d2 : List String) : Bool :=
  hasPrefixComps d1 d2 || hasPrefixComps d2 d1

/-! ## Decimal rendering of job ids

The source builds the workspace directory name by interpolating the
job's uuid: ```pptx-job-${id}`  ``.  Ids are naturals in the model and
are rendered in decimal by `decRepr` (the rendering used by JS template
interpolation of a number; for the uuid case any injective rendering of
the fresh token plays the same role). -/

/-- Decimal digits of a natural number, most significant first, using the
standard digit characters.  The first argument is structural-recursion
fuel; any fuel above the number itself is enough. -/
def decDigitsAux : Nat → Nat → List Char
  | 0, _ => []
  | fuel + 1, n =>
    if n < 10 then [Nat.digitChar n]
    else decDigitsAux fuel (n / 10) ++ [Nat.digitChar (n % 10)]

/-- Decimal string rendering of a natural number. -/
def decRepr (n : Nat) : String :=
  String.mk (decDigitsAux (n + 1) n)

/-- Parses a digit character list back to a natural number. -/
def parseDec (cs : List Char) : Nat :=
  cs.foldl (fun acc c => acc * 10 + (c.toNat - 48)) 0

/-! ## Job and queue state

Direct translation of the `Job` record and the private state of
`ConversionQueue` from `queue.ts`.  The `_cleanupTimer` handle is
represented only through the cleanup event itself (firing the TTL timer
invokes the same `cleanup` path as an explicit cleanup).  `inflight`
records the ids of started `_run` executions whose `.finally` handler
has not yet run; it is the model of the set of pending completion
callbacks and backs the `running` counter. -/

inductive JobStatus where
  | pending
  | running
  | done
  | error
deriving DecidableEq, Repr

structure Job where
  id : Nat
  status : JobStatus
  position : Option Nat
  tempDir : List String
  stagedFiles : List String
  outputPaths : List (List String)
  errorMsg : Option String
deriving DecidableEq, Repr

structure QState where
  maxConcurrent : Nat
  running : Nat
  jobs : List Job
  inflight : List Nat
  nextId : Nat
deriving DecidableEq, Repr

/-- Workspace directory of a job: `path.join(os.tmpdir(), "pptx-job-" + id)`. -/
def tempDirOf (id : Nat) : List String :=
  ["tmp", "pptx-job-" ++ decRepr id]

/-- Directory content after writing the uploaded files: each name appears
once (a second `writeFileSync` with the same name overwrites). -/
def stagedEntries (files : List String) : List String :=
  files.foldl (fun acc n => if n ∈ acc then acc else acc ++ [n]) []

/-! ## Queue operations -/

/-- Model of `path.extname`: index of the last dot of a character list. -/
def lastDotIdx : List Char → Option Nat
  | [] => none
  | c :: rest =>
    match lastDotIdx rest with
    | some i => some (i + 1)
    | none => if c = '.' then some 0 else none

/-- Model of `path.extname` on a bare file name: the suffix from the last
dot, empty if there is none or the name starts with its only dot. -/
def extname (f : String) : String :=
  match lastDotIdx f.data with
  | none => ""
  | some 0 => ""
  | some i => String.mk (f.data.drop i)

/-- Model of `path.basename(f, ext)`: strips the suffix `ext` when `f`
ends with it and is not `ext` itself. -/
def baseNameStrip (f ext : String) : String :=
  if f ≠ ext ∧ ext.data.isSuffixOf f.data then
    String.mk (f.data.take (f.data.length - ext.data.length))
  else f

/-- Model of `String.prototype.toLowerCase` for the ASCII extensions at hand. -/
def toLowerStr (s : String) : String :=
  String.mk (s.data.map Char.toLower)

/-- Extension filter of `_run`: `[".ppt", ".pptx"].includes(path.extname(f).toLowerCase())`. -/
def isSupportedInput (f : String) : Bool :=
  decide (toLowerStr (extname f) = ".ppt") || decide (toLowerStr (extname f) = ".pptx")

/-- Input files of a job as computed by `_run`:
the staged directory entries with a supported extension. -/
def inputFilesOf (job : Job) : List String :=
  job.stagedFiles.filter isSupportedInput

/-- Output path used by `_run` for one input file. -/
def outPathOf (dir : List String) (f : String) : List String :=
  joinPath dir (baseNameStrip f (extname f) ++ ".pdf")

/-- The conversion loop of `_run`: each input file is attempted once in
order via `convertFileDirect(inputPath, outputPath)` (the oracle `conv`
on the input path); a success appends the output path, a failure leaves
the accumulator unchanged and the loop continues. -/
def runLoop (dir : List String) (conv : List String → Bool)
    (inputs : List String) (acc : List (List String)) : List (List String) :=
  inputs.foldl (fun outs f =>
    if conv (joinPath dir f) then outs ++ [outPathOf dir f] else outs) acc

/-- Effect of a normal (non-throwing) execution of `_run` on its job:
run the conversion loop over the supported staged files, then set
`status`/`error` from whether any output was produced. -/
def applyRun (job : Job) (conv : List String → Bool) : Job :=
  let outs := runLoop job.tempDir conv (inputFilesOf job) job.outputPaths
  if outs = [] then
    { job with status := JobStatus.error, errorMsg := some "All conversions failed.",
               outputPaths := outs }
  else
    { job with status := JobStatus.done, outputPaths := outs }

/-- Effect of the `catch` branch of `_run`: an unexpected exception is
converted to `status = error` with the exception's message. -/
def applyRunExn (job : Job) (msg : String) : Job :=
  { job with status := JobStatus.error, errorMsg := some msg }

/-- Model of `_updatePositions`: walk the jobs in insertion order and give
pending jobs positions `pos, pos+1, …`; non-pending jobs get none. -/
def updatePositionsGo : Nat → List Job → List Job
  | _, [] => []
  | pos, j :: rest =>
    if j.status = JobStatus.pending then
      { j with position := some pos } :: updatePositionsGo (pos + 1) rest
    else
      { j with position := none } :: updatePositionsGo pos rest

/-- Model of `ConversionQueue._updatePositions` (positions start at 1). -/
def updatePositions (jobs : List Job) : List Job :=
  updatePositionsGo 1 jobs

/-- Replaces the job with the given id (the `Map` holds one entry per id). -/
def setJobIn (jobs : List Job) (id : Nat) (f : Job → Job) : List Job :=
  jobs.map fun j => if j.id = id then f j else j

/-- Key test used by the `Map` lookups and deletions. -/
def byId (i : Nat) : Job → Bool := fun j => decide (j.id = i)

/-- Status test for pending jobs. -/
def isPendingJob : Job → Bool := fun j => decide (j.status = JobStatus.pending)

/-- Model of `ConversionQueue._nextPendingJob`: the first pending job in
insertion order. -/
def nextPendingJob (jobs : List Job) : Option Job :=
  jobs.find? isPendingJob

/-- Model of `ConversionQueue.getJob`. -/
def getJob (s : QState) (id : Nat) : Option Job :=
  s.jobs.find? (byId id)

/-- Model of the pending count computed by `ConversionQueue.getStats`. -/
def pendingJobs (jobs : List Job) : List Job :=
  jobs.filter isPendingJob

/-- Number of jobs whose status is `running`. -/
def runningCount (jobs : List Job) : Nat :=
  (jobs.filter fun j => decide (j.status = JobStatus.running)).length

/-- Model of `ConversionQueue._scheduleNext` up to the point where `_run`
is started asynchronously: if a slot is free and a pending job exists,
admit the oldest pending job (status `running`, position cleared,
counter incremented, positions recomputed) and record the started
execution in `inflight`. -/
def scheduleNext (s : QState) : QState :=
  if s.maxConcurrent ≤ s.running then s
  else
    match nextPendingJob s.jobs with
    | none => s
    | some j =>
      { s with
        running := s.running + 1,
        jobs := updatePositions (setJobIn s.jobs j.id fun j0 =>
          { j0 with status := JobStatus.running, position := none }),
        inflight := j.id :: s.inflight }

/-- Model of `ConversionQueue.enqueue`: stage the files in a fresh
workspace, insert a pending record, recompute positions, attempt an
admission pass, and return the new job id immediately. -/
def enqueue (s : QState) (files : List String) : QState × Nat :=
  let id := s.nextId
  let job : Job :=
    { id := id, status := JobStatus.pending, position := none,
      tempDir := tempDirOf id, stagedFiles := stagedEntries files,
      outputPaths := [], errorMsg := none }
  let s1 := { s with jobs := updatePositions (s.jobs ++ [job]), nextId := id + 1 }
  (scheduleNext s1, id)

/-- Model of `ConversionQueue.cleanup`: if the id is unknown, do nothing;
otherwise reclaim the workspace (returned as the second component, the
observable side effect) and delete the record.  The timer clearing has
no further observable effect on the queue state. -/
def cleanup (s : QState) (id : Nat) : QState × Option (List String) :=
  match s.jobs.find? (byId id) with
  | none => (s, none)
  | some j =>
    ({ s with jobs := s.jobs.filter fun j2 => !byId id j2 }, some j.tempDir)

/-- Shared completion path: the end of `_run` (the job update `upd`)
followed by the `.finally` handler, which decrements `running` and
drains the queue via `_scheduleNext`.  Only a started, not yet completed
execution can complete. -/
def finishInternal (s : QState) (id : Nat) (upd : Job → Job) : QState :=
  if id ∈ s.inflight then
    scheduleNext
      { s with
        jobs := setJobIn s.jobs id upd,
        inflight := s.inflight.erase id,
        running := s.running - 1 }
  else s

/-- External events of the queue singleton. -/
inductive Event where
  | enqueue (files : List String)
  | finish (id : Nat) (conv : List String → Bool)
  | finishExn (id : Nat) (msg : String)
  | cleanup (id : Nat)

/-- Applies one event to the queue state. -/
def applyEvent (s : QState) : Event → QState
  | Event.enqueue files => (enqueue s files).1
  | Event.finish id conv => finishInternal s id (fun j => applyRun j conv)
  | Event.finishExn id msg => finishInternal s id (fun j => applyRunExn j msg)
  | Event.cleanup id => (cleanup s id).1

/-- Applies a sequence of events. -/
def applyEvents (s : QState) : List Event → QState
  | [] => s
  | e :: es => applyEvents (applyEvent s e) es

/-- Initial state of the singleton with concurrency budget `k`. -/
def initState (k : Nat) : QState :=
  { maxConcurrent := k, running := 0, jobs := [], inflight := [], nextId := 0 }

/-- A state is reachable when some event sequence produces it from an
initial state. -/
def Reachable (s : QState) : Prop :=
  ∃ k es, s = applyEvents (initState k) es

/-- Tests whether an event is a cleanup call. -/
def isCleanupEvent : Event → Bool
  | Event.cleanup _ => true
  | _ => false

/-! ## The scheduler invariant

The conjuncts: the running counter is within budget; it counts exactly
the started, not yet completed executions; started executions are
pairwise distinct; job ids are pairwise distinct; a stored job has
status `running` exactly when its execution is in flight; all issued
ids are below the fresh counter; a job's workspace is the one derived
from its id. -/

def Inv (s : QState) : Prop :=
  s.running ≤ s.maxConcurrent ∧
  s.inflight.length = s.running ∧
  s.inflight.Nodup ∧
  (s.jobs.map (fun j => j.id)).Nodup ∧
  (∀ j ∈ s.jobs, (j.status = JobStatus.running ↔ j.id ∈ s.inflight)) ∧
  (∀ j ∈ s.jobs, j.id < s.nextId) ∧
  (∀ i ∈ s.inflight, i < s.nextId) ∧
  (∀ j ∈ s.jobs, j.tempDir = tempDirOf j.id)

/-- Position correctness: pending jobs carry positions `1, …, pendingCount`
in insertion order and non-pending jobs carry none. -/
def PosOk (jobs : List Job) : Prop :=
  (pendingJobs jobs).map (fun j => j.position)
      = (List.range' 1 (pendingJobs jobs).length).map some
  ∧ ∀ j ∈ jobs, j.status ≠ JobStatus.pending → j.position = none

/-- Queue state reached from budget 1 by two enqueues: job 0 running,
job 1 pending at position 1. -/
def exStateA : QState :=
  applyEvents (initState 1) [Event.enqueue [], Event.enqueue []]

/-- The pending job of `exStateA`. -/
def exPendingJob : Job :=
  { id := 1, status := JobStatus.pending, position := some 1,
    tempDir := tempDirOf 1, stagedFiles := [], outputPaths := [], errorMsg := none }

/-- A running job whose only staged file has an unsupported extension. -/
def exJobText : Job :=
  { id := 5, status := JobStatus.running, position := none,
    tempDir := tempDirOf 5, stagedFiles := ["notes.txt"],
    outputPaths := [], errorMsg := none }

/-- A running job with three staged files, used for the concrete scenario
of the execution claim. -/
def exJob3 : Job :=
  { id := 0, status := JobStatus.running, position := none,
    tempDir := tempDirOf 0, stagedFiles := ["a.pptx", "b.pptx", "c.pptx"],
    outputPaths := [], errorMsg := none }

/-- Conversion oracle that fails exactly on the second staged file. -/
def exConv3 : List String → Bool :=
  fun p => !(decide (p = joinPath (tempDirOf 0) "b.pptx"))

/-! ## Generic list lemmas -/

theorem find?_append_of_none {α : Type} (p : α → Bool) {xs : List α} (ys : List α)
    (h : xs.find? p = none) : (xs ++ ys).find? p = ys.find? p := by
  induction xs with
  | nil => simp
  | cons x xs ih =>
    have hx : ¬ p x = true := List.find?_eq_none.mp h x (by simp)
    have hxs : xs.find? p = none :=
      List.find?_eq_none.mpr fun a ha => List.find?_eq_none.mp h a (by simp [ha])
    rw [List.cons_append, List.find?_cons_of_neg _ hx]
    exact ih hxs

theorem find?_first_in {α : Type} (p : α → Bool) (xs : List α) (a : α) (ys : List α)
    (h : p a = true) : ∃ j, (xs ++ a :: ys).find? p = some j ∧ j ∈ xs ++ [a] := by
  induction xs with
  | nil => exact ⟨a, by rw [List.nil_append, List.find?_cons_of_pos _ h], by simp⟩
  | cons x xs ih =>
    by_cases hx : p x = true
    · exact ⟨x, by rw [List.cons_append, List.find?_cons_of_pos _ hx], by simp⟩
    · obtain ⟨j, hj, hmem⟩ := ih
      refine ⟨j, ?_, ?_⟩
      · rw [List.cons_append, List.find?_cons_of_neg _ hx]
        exact hj
      · simp only [List.mem_append, List.mem_cons, List.mem_singleton] at hmem ⊢
        tauto

theorem find?_map_of_id {α : Type} (g : α → α) (p : α → Bool)
    (hp : ∀ x, p (g x) = p x) (l : List α) :
    (l.map g).find? p = Option.map g (l.find? p) := by
  induction l with
  | nil => simp
  | cons x xs ih =>
    by_cases hx : p x = true
    · rw [List.map_cons, List.find?_cons_of_pos _ hx,
        List.find?_cons_of_pos _ (by rw [hp]; exact hx)]
      rfl
    · rw [List.map_cons, List.find?_cons_of_neg _ (by rw [hp]; exact hx),
        List.find?_cons_of_neg _ hx]
      exact ih

/-! ## Path lemmas -/

theorem splitCompsAux_no_sep (cs : List Char) (acc : List Char)
    (h : ∀ c ∈ cs, c ≠ '/') : splitCompsAux cs acc = [String.mk (acc.reverse ++ cs)] := by
  induction cs generalizing acc with
  | nil => simp [splitCompsAux]
  | cons c rest ih =>
    have hc : c ≠ '/' := h c (by simp)
    rw [splitCompsAux, if_neg hc, ih _ fun x hx => h x (by simp [hx])]
    simp

theorem splitComps_no_sep (name : String) (h : ∀ c ∈ name.data, c ≠ '/') :
    splitComps name = [name] := by
  rw [splitComps, splitCompsAux_no_sep _ _ h]
  simp

theorem hasPrefixComps_self_append (d xs : List String) :
    hasPrefixComps d (d ++ xs) = true := by
  induction d with
  | nil => simp [hasPrefixComps]
  | cons c cs ih => simp [hasPrefixComps, ih]

theorem normStep_plain (acc : List String) (c : String)
    (h0 : c ≠ "") (h1 : c ≠ ".") (h2 : c ≠ "..") : normStep acc c = acc ++ [c] := by
  rw [normStep, if_neg (by simp [h0, h1]), if_neg h2]

/-! ## Decimal rendering: injectivity -/

theorem digitChar_toNat (d : Nat) (h : d < 10) : (Nat.digitChar d).toNat = 48 + d := by
  interval_cases d <;> rfl

theorem parseDec_snoc (xs : List Char) (c : Char) :
    parseDec (xs ++ [c]) = parseDec xs * 10 + (c.toNat - 48) := by
  simp [parseDec, List.foldl_append]

theorem parseDec_decDigitsAux :
    ∀ fuel n : Nat, n < fuel → parseDec (decDigitsAux fuel n) = n := by
  intro fuel
  induction fuel with
  | zero => intro n h; omega
  | succ fuel ih =>
    intro n h
    rw [decDigitsAux]
    by_cases h10 : n < 10
    · rw [if_pos h10]
      simp [parseDec, digitChar_toNat n h10]
    · rw [if_neg h10]
      have hdiv := Nat.div_lt_self (show 0 < n by omega) (show 1 < 10 by omega)
      rw [parseDec_snoc, ih (n / 10) (by omega), digitChar_toNat (n % 10) (by omega)]
      omega

theorem decRepr_inj {a b : Nat} (h : decRepr a = decRepr b) : a = b := by
  have hd : decDigitsAux (a + 1) a = decDigitsAux (b + 1) b := congrArg String.data h
  have ha := parseDec_decDigitsAux (a + 1) a (by omega)
  have hb := parseDec_decDigitsAux (b + 1) b (by omega)
  rw [← ha, ← hb, hd]

theorem jobComp_inj {a b : Nat}
    (h : "pptx-job-" ++ decRepr a = "pptx-job-" ++ decRepr b) : a = b := by
  have hd := congrArg String.data h
  rw [String.data_append, String.data_append] at hd
  exact decRepr_inj (congrArg String.mk (List.append_cancel_left hd))

theorem jobComp_ne_empty (x : String) : "pptx-job-" ++ x ≠ "" := by
  intro h
  have hd := congrArg String.data h
  rw [String.data_append] at hd
  exact absurd hd (by simp [show "pptx-job-".data = 'p' :: "ptx-job-".data from rfl])

theorem jobComp_ne_dot (x : String) : "pptx-job-" ++ x ≠ "." := by
  intro h
  have hd := congrArg String.data h
  rw [String.data_append] at hd
  have : 'p' = '.' := by
    have e : "pptx-job-".data = 'p' :: "ptx-job-".data := rfl
    rw [e] at hd
    exact (List.cons.injEq _ _ _ _ ▸ hd).1
  exact absurd this (by decide)

theorem jobComp_ne_dotdot (x : String) : "pptx-job-" ++ x ≠ ".." := by
  intro h
  have hd := congrArg String.data h
  rw [String.data_append] at hd
  have : 'p' = '.' := by
    have e : "pptx-job-".data = 'p' :: "ptx-job-".data := rfl
    rw [e] at hd
    exact (List.cons.injEq _ _ _ _ ▸ hd).1
  exact absurd this (by decide)

theorem joinPath_simple (id : Nat) (name : String)
    (hn : ∀ c ∈ name.data, c ≠ '/')
    (h0 : name ≠ "") (h1 : name ≠ ".") (h2 : name ≠ "..") :
    joinPath (tempDirOf id) name = tempDirOf id ++ [name] := by
  rw [joinPath, splitComps_no_sep name hn, tempDirOf]
  show normalizeComps ["tmp", "pptx-job-" ++ decRepr id, name] = _
  rw [normalizeComps]
  rw [List.foldl_cons, List.foldl_cons, List.foldl_cons, List.foldl_nil]
  rw [show normStep [] "tmp" = ["tmp"] from rfl,
    normStep_plain _ _ (jobComp_ne_empty _) (jobComp_ne_dot _) (jobComp_ne_dotdot _),
    normStep_plain _ _ h0 h1 h2]
  rfl

/-! ## Lemmas about the position recomputation -/

theorem updatePositionsGo_map_id (pos : Nat) (l : List Job) :
    (updatePositionsGo pos l).map (fun j => j.id) = l.map (fun j => j.id) := by
  induction l generalizing pos with
  | nil => rfl
  | cons j rest ih =>
    by_cases hs : j.status = JobStatus.pending <;> simp [updatePositionsGo, hs, ih]

theorem mem_updatePositionsGo {j' : Job} {pos : Nat} {l : List Job}
    (h : j' ∈ updatePositionsGo pos l) :
    ∃ j ∈ l, j'.id = j.id ∧ j'.status = j.status ∧ j'.tempDir = j.tempDir := by
  induction l generalizing pos with
  | nil => cases h
  | cons j rest ih =>
    by_cases hs : j.status = JobStatus.pending
    · rw [updatePositionsGo, if_pos hs] at h
      rcases List.mem_cons.mp h with h1 | h1
      · exact ⟨j, by simp, by simp [h1]⟩
      · obtain ⟨j0, hj0, hprop⟩ := ih h1
        exact ⟨j0, by simp [hj0], hprop⟩
    · rw [updatePositionsGo, if_neg hs] at h
      rcases List.mem_cons.mp h with h1 | h1
      · exact ⟨j, by simp, by simp [h1]⟩
      · obtain ⟨j0, hj0, hprop⟩ := ih h1
        exact ⟨j0, by simp [hj0], hprop⟩

theorem find?_byId_updatePositionsGo (i pos : Nat) (l : List Job) :
    ∃ p, (updatePositionsGo pos l).find? (byId i)
      = Option.map (fun j => { j with position := p }) (l.find? (byId i)) := by
  induction l generalizing pos with
  | nil => exact ⟨none, rfl⟩
  | cons j rest ih =>
    by_cases hid : byId i j = true
    · by_cases hs : j.status = JobStatus.pending
      · refine ⟨some pos, ?_⟩
        rw [updatePositionsGo, if_pos hs, List.find?_cons_of_pos _ (by simpa [byId] using hid),
          List.find?_cons_of_pos _ hid]
        rfl
      · refine ⟨none, ?_⟩
        rw [updatePositionsGo, if_neg hs, List.find?_cons_of_pos _ (by simpa [byId] using hid),
          List.find?_cons_of_pos _ hid]
        rfl
    · have hid2 : ¬ byId i j = true := hid
      by_cases hs : j.status = JobStatus.pending
      · obtain ⟨p, hp⟩ := ih (pos + 1)
        refine ⟨p, ?_⟩
        rw [updatePositionsGo, if_pos hs, List.find?_cons_of_neg _ (by simpa [byId] using hid2),
          List.find?_cons_of_neg _ hid2]
        exact hp
      · obtain ⟨p, hp⟩ := ih pos
        refine ⟨p, ?_⟩
        rw [updatePositionsGo, if_neg hs, List.find?_cons_of_neg _ (by simpa [byId] using hid2),
          List.find?_cons_of_neg _ hid2]
        exact hp

theorem pendingJobs_updatePositionsGo (pos : Nat) (l : List Job) :
    (pendingJobs (updatePositionsGo pos l)).map (fun j => j.position)
      = (List.range' pos (pendingJobs l).length).map some := by
  induction l generalizing pos with
  | nil => rfl
  | cons j rest ih =>
    by_cases hs : j.status = JobStatus.pending
    · rw [updatePositionsGo, if_pos hs]
      have h1 : isPendingJob { j with position := some pos } = true := by simp [isPendingJob, hs]
      have h2 : isPendingJob j = true := by simp [isPendingJob, hs]
      have ih2 := ih (pos + 1)
      simp only [pendingJobs] at ih2 ⊢
      rw [List.filter_cons_of_pos h1, List.filter_cons_of_pos h2]
      rw [List.length_cons, List.range'_succ, List.map_cons, List.map_cons, ih2]
    · rw [updatePositionsGo, if_neg hs]
      have h1 : ¬ isPendingJob { j with position := none } = true := by simp [isPendingJob, hs]
      have h2 : ¬ isPendingJob j = true := by simp [isPendingJob, hs]
      have ih2 := ih pos
      simp only [pendingJobs] at ih2 ⊢
      rw [List.filter_cons_of_neg h1, List.filter_cons_of_neg h2]
      exact ih2

theorem updatePositionsGo_nonpending {pos : Nat} {l : List Job} :
    ∀ j' ∈ updatePositionsGo pos l, j'.status ≠ JobStatus.pending → j'.position = none := by
  induction l generalizing pos with
  | nil => intro j' h; cases h
  | cons j rest ih =>
    intro j' hmem hnp
    by_cases hs : j.status = JobStatus.pending
    · rw [updatePositionsGo, if_pos hs] at hmem
      rcases List.mem_cons.mp hmem with h1 | h1
      · exact absurd (h1 ▸ hs) hnp
      · exact ih j' h1 hnp
    · rw [updatePositionsGo, if_neg hs] at hmem
      rcases List.mem_cons.mp hmem with h1 | h1
      · rw [h1]
      · exact ih j' h1 hnp

/-! ## Lemmas about single-job replacement -/

theorem setJobIn_map_id (l : List Job) (id : Nat) (g : Job → Job)
    (hg : ∀ j, (g j).id = j.id) :
    (setJobIn l id g).map (fun j => j.id) = l.map (fun j => j.id) := by
  induction l with
  | nil => rfl
  | cons j rest ih =>
    by_cases hid : j.id = id <;> simp [setJobIn, hid, hg] at ih ⊢ <;> exact ih

theorem mem_setJobIn {j' : Job} {l : List Job} {id : Nat} {g : Job → Job}
    (h : j' ∈ setJobIn l id g) :
    ∃ j ∈ l, j' = if j.id = id then g j else j := by
  obtain ⟨j, hj, he⟩ := List.mem_map.mp h
  exact ⟨j, hj, he.symm⟩

theorem find?_byId_setJobIn (l : List Job) (id : Nat) (g : Job → Job)
    (hg : ∀ j, (g j).id = j.id) (i : Nat) :
    (setJobIn l id g).find? (byId i)
      = Option.map (fun j => if j.id = id then g j else j) (l.find? (byId i)) :=
  find?_map_of_id _ _
    (fun j => by by_cases hj : j.id = id <;> simp [byId, hj, hg]) l

theorem find?_isPending_setJobIn (l : List Job) (id : Nat) (g : Job → Job)
    (h : ∀ j ∈ l, j.id = id → j.status ≠ JobStatus.pending ∧ (g j).status ≠ JobStatus.pending) :
    (setJobIn l id g).find? isPendingJob = l.find? isPendingJob := by
  induction l with
  | nil => rfl
  | cons j rest ih =>
    have hrest : ∀ j0 ∈ rest, j0.id = id →
        j0.status ≠ JobStatus.pending ∧ (g j0).status ≠ JobStatus.pending :=
      fun j0 h0 => h j0 (List.mem_cons_of_mem _ h0)
    by_cases hid : j.id = id
    · obtain ⟨h1, h2⟩ := h j (by simp) hid
      rw [setJobIn, List.map_cons, if_pos hid,
        List.find?_cons_of_neg _ (by simp [isPendingJob, h2]),
        List.find?_cons_of_neg _ (by simp [isPendingJob, h1])]
      exact ih hrest
    · by_cases hp : isPendingJob j = true
      · rw [setJobIn, List.map_cons, if_neg hid, List.find?_cons_of_pos _ hp,
          List.find?_cons_of_pos _ hp]
      · rw [setJobIn, List.map_cons, if_neg hid, List.find?_cons_of_neg _ hp,
          List.find?_cons_of_neg _ hp]
        exact ih hrest

theorem find?_byId_of_mem_nodup {l : List Job} {b : Job}
    (hnd : (l.map (fun j => j.id)).Nodup) (hb : b ∈ l) :
    l.find? (byId b.id) = some b := by
  induction l with
  | nil => cases hb
  | cons x rest ih =>
    rw [List.map_cons, List.nodup_cons] at hnd
    rcases List.mem_cons.mp hb with h1 | h1
    · rw [h1, List.find?_cons_of_pos _ (by simp [byId])]
    · have hxne : x.id ≠ b.id := by
        intro he
        exact hnd.1 (he ▸ List.mem_map.mpr ⟨b, h1, rfl⟩)
      rw [List.find?_cons_of_neg _ (by simp [byId, hxne])]
      exact ih hnd.2 h1

theorem tempDirOf_no_overlap {a b : Nat} (h : a ≠ b) :
    dirsOverlap (tempDirOf a) (tempDirOf b) = false := by
  have hx : ("pptx-job-" ++ decRepr a) ≠ ("pptx-job-" ++ decRepr b) :=
    fun hc => h (jobComp_inj hc)
  have hx2 : ("pptx-job-" ++ decRepr b) ≠ ("pptx-job-" ++ decRepr a) :=
    fun hc => h (jobComp_inj hc.symm)
  simp [dirsOverlap, tempDirOf, hasPrefixComps, hx, hx2]

/-! ## Facts about the run-effect functions -/

theorem runLoop_eq (dir : List String) (conv : List String → Bool)
    (inputs : List String) (acc : List (List String)) :
    runLoop dir conv inputs acc
      = acc ++ (inputs.filter fun f => conv (joinPath dir f)).map (outPathOf dir) := by
  induction inputs generalizing acc with
  | nil => simp [runLoop]
  | cons f rest ih =>
    by_cases hc : conv (joinPath dir f) = true
    · have hstep : runLoop dir conv (f :: rest) acc
          = runLoop dir conv rest (acc ++ [outPathOf dir f]) := by
        simp only [runLoop, List.foldl_cons, if_pos hc]
      have hfil : List.filter (fun f => conv (joinPath dir f)) (f :: rest)
          = f :: List.filter (fun f => conv (joinPath dir f)) rest := by
        simp [List.filter_cons, hc]
      rw [hstep, ih, hfil, List.map_cons, List.append_assoc]
      rfl
    · have hstep : runLoop dir conv (f :: rest) acc = runLoop dir conv rest acc := by
        simp only [runLoop, List.foldl_cons, if_neg hc]
      have hfil : List.filter (fun f => conv (joinPath dir f)) (f :: rest)
          = List.filter (fun f => conv (joinPath dir f)) rest := by
        simp [List.filter_cons, hc]
      rw [hstep, ih, hfil]

theorem applyRun_id (j : Job) (conv : List String → Bool) : (applyRun j conv).id = j.id := by
  simp only [applyRun]
  split <;> rfl

theorem applyRun_dir (j : Job) (conv : List String → Bool) :
    (applyRun j conv).tempDir = j.tempDir := by
  simp only [applyRun]
  split <;> rfl

theorem applyRun_pos (j : Job) (conv : List String → Bool) :
    (applyRun j conv).position = j.position := by
  simp only [applyRun]
  split <;> rfl

theorem applyRun_terminal (j : Job) (conv : List String → Bool) :
    (applyRun j conv).status = JobStatus.done ∨ (applyRun j conv).status = JobStatus.error := by
  simp only [applyRun]
  split
  · exact Or.inr rfl
  · exact Or.inl rfl

/-! ## Preservation of the scheduler invariant -/

theorem inv_scheduleNext {s : QState} (h : Inv s) : Inv (scheduleNext s) := by
  obtain ⟨h1, h2, h3, h4, h5, h6, h7, h8⟩ := h
  by_cases hcap : s.maxConcurrent ≤ s.running
  · simp only [scheduleNext, if_pos hcap]
    exact ⟨h1, h2, h3, h4, h5, h6, h7, h8⟩
  · cases hnp : nextPendingJob s.jobs with
    | none =>
      simp only [scheduleNext, if_neg hcap, hnp]
      exact ⟨h1, h2, h3, h4, h5, h6, h7, h8⟩
    | some j =>
      simp only [scheduleNext, if_neg hcap, hnp]
      have hjmem : j ∈ s.jobs := List.mem_of_find?_eq_some hnp
      have hjpend : j.status = JobStatus.pending := by
        have := List.find?_some hnp
        simpa [isPendingJob] using this
      have hjnotin : j.id ∉ s.inflight := by
        intro hin
        have := (h5 j hjmem).mpr hin
        simp [hjpend] at this
      refine ⟨by show s.running + 1 ≤ s.maxConcurrent; omega, by simp [h2],
        List.nodup_cons.mpr ⟨hjnotin, h3⟩, ?_, ?_, ?_, ?_, ?_⟩
      · simp only [updatePositions]
        rw [updatePositionsGo_map_id,
          setJobIn_map_id s.jobs j.id
            (fun j0 => { j0 with status := JobStatus.running, position := none })
            (fun j0 => rfl)]
        exact h4
      · intro j' hmem'
        simp only [updatePositions] at hmem'
        obtain ⟨j2, hj2mem, hid_eq, hst_eq, _⟩ := mem_updatePositionsGo hmem'
        obtain ⟨j0, hj0mem, hj0eq⟩ := mem_setJobIn hj2mem
        by_cases hjid : j0.id = j.id
        · rw [if_pos hjid] at hj0eq
          constructor
          · intro _
            rw [hid_eq, hj0eq]
            simp [hjid]
          · intro _
            rw [hst_eq, hj0eq]
        · rw [if_neg hjid] at hj0eq
          rw [hid_eq, hst_eq, hj0eq]
          constructor
          · intro hr
            exact List.mem_cons_of_mem _ ((h5 j0 hj0mem).mp hr)
          · intro hin
            rcases List.mem_cons.mp hin with he | hin2
            · exact absurd he hjid
            · exact (h5 j0 hj0mem).mpr hin2
      · intro j' hmem'
        simp only [updatePositions] at hmem'
        obtain ⟨j2, hj2mem, hid_eq, _, _⟩ := mem_updatePositionsGo hmem'
        obtain ⟨j0, hj0mem, hj0eq⟩ := mem_setJobIn hj2mem
        have : j2.id = j0.id := by
          rw [hj0eq]
          by_cases hjid : j0.id = j.id <;> simp [hjid]
        rw [hid_eq, this]
        exact h6 j0 hj0mem
      · intro i hi
        rcases List.mem_cons.mp hi with he | hi2
        · exact he ▸ h6 j hjmem
        · exact h7 i hi2
      · intro j' hmem'
        simp only [updatePositions] at hmem'
        obtain ⟨j2, hj2mem, hid_eq, _, hdir_eq⟩ := mem_updatePositionsGo hmem'
        obtain ⟨j0, hj0mem, hj0eq⟩ := mem_setJobIn hj2mem
        have hid2 : j2.id = j0.id := by
          rw [hj0eq]
          by_cases hjid : j0.id = j.id <;> simp [hjid]
        have hdir2 : j2.tempDir = j0.tempDir := by
          rw [hj0eq]
          by_cases hjid : j0.id = j.id <;> simp [hjid]
        rw [hid_eq, hdir_eq, hid2, hdir2]
        exact h8 j0 hj0mem

theorem inv_enqueue {s : QState} (files : List String) (h : Inv s) :
    Inv (enqueue s files).1 := by
  obtain ⟨h1, h2, h3, h4, h5, h6, h7, h8⟩ := h
  simp only [enqueue]
  apply inv_scheduleNext
  refine ⟨h1, h2, h3, ?_, ?_, ?_, ?_, ?_⟩
  · simp only [updatePositions]
    rw [updatePositionsGo_map_id, List.map_append]
    rw [List.nodup_append]
    refine ⟨h4, by simp, ?_⟩
    intro a ha
    simp only [List.map_cons, List.map_nil, List.mem_singleton]
    intro he
    obtain ⟨j0, hj0, hid0⟩ := List.mem_map.mp ha
    have := h6 j0 hj0
    omega
  · intro j' hmem'
    simp only [updatePositions] at hmem'
    obtain ⟨j0, hj0mem, hid_eq, hst_eq, _⟩ := mem_updatePositionsGo hmem'
    rcases List.mem_append.mp hj0mem with hold | hnew
    · rw [hid_eq, hst_eq]
      exact h5 j0 hold
    · rw [List.mem_singleton] at hnew
      rw [hid_eq, hst_eq, hnew]
      constructor
      · intro hr
        simp at hr
      · intro hin
        have := h7 _ hin
        dsimp only at hin this ⊢
        omega
  · intro j' hmem'
    simp only [updatePositions] at hmem'
    obtain ⟨j0, hj0mem, hid_eq, _, _⟩ := mem_updatePositionsGo hmem'
    rcases List.mem_append.mp hj0mem with hold | hnew
    · have := h6 j0 hold
      dsimp only
      omega
    · rw [List.mem_singleton] at hnew
      rw [hid_eq, hnew]
      dsimp only
      omega
  · intro i hi
    have := h7 i hi
    dsimp only
    omega
  · intro j' hmem'
    simp only [updatePositions] at hmem'
    obtain ⟨j0, hj0mem, hid_eq, _, hdir_eq⟩ := mem_updatePositionsGo hmem'
    rcases List.mem_append.mp hj0mem with hold | hnew
    · rw [hid_eq, hdir_eq]
      exact h8 j0 hold
    · rw [List.mem_singleton] at hnew
      rw [hid_eq, hdir_eq, hnew]

theorem inv_finishInternal {s : QState} {id : Nat} {upd : Job → Job} (h : Inv s)
    (hupd_id : ∀ j, (upd j).id = j.id)
    (hupd_dir : ∀ j, (upd j).tempDir = j.tempDir)
    (hupd_st : ∀ j, (upd j).status = JobStatus.done ∨ (upd j).status = JobStatus.error) :
    Inv (finishInternal s id upd) := by
  obtain ⟨h1, h2, h3, h4, h5, h6, h7, h8⟩ := h
  by_cases hin : id ∈ s.inflight
  · simp only [finishInternal, if_pos hin]
    apply inv_scheduleNext
    refine ⟨by show s.running - 1 ≤ s.maxConcurrent; omega, ?_, h3.erase id, ?_, ?_, ?_, ?_, ?_⟩
    · show (s.inflight.erase id).length = s.running - 1
      rw [List.length_erase_of_mem hin, h2]
    · show (List.map _ (setJobIn s.jobs id upd)).Nodup
      rw [setJobIn_map_id _ _ _ hupd_id]
      exact h4
    · intro j' hmem'
      obtain ⟨j0, hj0mem, hj0eq⟩ := mem_setJobIn hmem'
      by_cases hjid : j0.id = id
      · rw [if_pos hjid] at hj0eq
        constructor
        · intro hr
          rcases hupd_st j0 with hs | hs <;> rw [hj0eq, hs] at hr <;> cases hr
        · intro hmemE
          rw [hj0eq, hupd_id, hjid] at hmemE
          exact absurd ((List.Nodup.mem_erase_iff h3).mp hmemE).1 (by simp)
      · rw [if_neg hjid] at hj0eq
        rw [hj0eq]
        constructor
        · intro hr
          exact (List.Nodup.mem_erase_iff h3).mpr ⟨hjid, (h5 j0 hj0mem).mp hr⟩
        · intro hmemE
          exact (h5 j0 hj0mem).mpr ((List.Nodup.mem_erase_iff h3).mp hmemE).2
    · intro j' hmem'
      obtain ⟨j0, hj0mem, hj0eq⟩ := mem_setJobIn hmem'
      have : j'.id = j0.id := by
        rw [hj0eq]
        by_cases hjid : j0.id = id <;> simp [hjid, hupd_id]
      rw [this]
      exact h6 j0 hj0mem
    · intro i hi
      exact h7 i (List.mem_of_mem_erase hi)
    · intro j' hmem'
      obtain ⟨j0, hj0mem, hj0eq⟩ := mem_setJobIn hmem'
      have hi : j'.id = j0.id := by
        rw [hj0eq]
        by_cases hjid : j0.id = id <;> simp [hjid, hupd_id]
      have hd : j'.tempDir = j0.tempDir := by
        rw [hj0eq]
        by_cases hjid : j0.id = id <;> simp [hjid, hupd_dir]
      rw [hi, hd]
      exact h8 j0 hj0mem
  · simp only [finishInternal, if_neg hin]
    exact ⟨h1, h2, h3, h4, h5, h6, h7, h8⟩

theorem inv_cleanup {s : QState} (id : Nat) (h : Inv s) : Inv (cleanup s id).1 := by
  obtain ⟨h1, h2, h3, h4, h5, h6, h7, h8⟩ := h
  cases hf : s.jobs.find? (byId id) with
  | none =>
    simp only [cleanup, hf]
    exact ⟨h1, h2, h3, h4, h5, h6, h7, h8⟩
  | some j =>
    simp only [cleanup, hf]
    have hsub : ∀ j' ∈ s.jobs.filter (fun j2 => !byId id j2), j' ∈ s.jobs :=
      fun j' hj' => List.mem_of_mem_filter hj'
    refine ⟨h1, h2, h3, ?_, ?_, ?_, h7, ?_⟩
    · exact h4.sublist (List.Sublist.map _ (List.filter_sublist s.jobs))
    · exact fun j' hj' => h5 j' (hsub j' hj')
    · exact fun j' hj' => h6 j' (hsub j' hj')
    · exact fun j' hj' => h8 j' (hsub j' hj')

theorem inv_applyEvent {s : QState} (h : Inv s) (e : Event) : Inv (applyEvent s e) := by
  cases e with
  | enqueue files => exact inv_enqueue files h
  | finish id conv =>
    exact inv_finishInternal h (fun j => applyRun_id j conv) (fun j => applyRun_dir j conv)
      (fun j => applyRun_terminal j conv)
  | finishExn id msg =>
    exact inv_finishInternal h (fun j => rfl) (fun j => rfl) (fun j => Or.inr rfl)
  | cleanup id => exact inv_cleanup id h

theorem inv_initState (k : Nat) : Inv (initState k) :=
  ⟨Nat.zero_le _, rfl, List.nodup_nil, List.nodup_nil,
    fun _ h => absurd h (List.not_mem_nil _), fun _ h => absurd h (List.not_mem_nil _),
    fun _ h => absurd h (List.not_mem_nil _), fun _ h => absurd h (List.not_mem_nil _)⟩

theorem inv_applyEvents : ∀ (es : List Event) (s : QState), Inv s → Inv (applyEvents s es)
  | [], _, h => h
  | e :: es, _, h => inv_applyEvents es _ (inv_applyEvent h e)

theorem inv_of_reachable {s : QState} (h : Reachable s) : Inv s := by
  obtain ⟨k, es, rfl⟩ := h
  exact inv_applyEvents es _ (inv_initState k)

/-! ## The running-status count is bounded by the running counter -/

theorem runningCount_le_running {s : QState} (h : Inv s) : runningCount s.jobs ≤ s.running := by
  obtain ⟨_, h2, _, h4, h5, _, _, _⟩ := h
  set rl := s.jobs.filter (fun j => decide (j.status = JobStatus.running)) with hrl
  have hnd : (rl.map (fun j => j.id)).Nodup :=
    h4.sublist (List.Sublist.map _ (List.filter_sublist s.jobs))
  have hsub : rl.map (fun j => j.id) ⊆ s.inflight := by
    intro a ha
    obtain ⟨j0, hj0, hid0⟩ := List.mem_map.mp ha
    have hmem := List.mem_of_mem_filter hj0
    have hrun : j0.status = JobStatus.running := by
      have := List.of_mem_filter hj0
      simpa using this
    exact hid0 ▸ (h5 j0 hmem).mp hrun
  have hle := (List.subperm_of_subset hnd hsub).length_le
  rw [List.length_map] at hle
  rw [runningCount, ← hrl, ← h2]
  exact hle

/-! ## Preservation of position correctness -/

theorem pendingJobs_updatePositionsGo_length (pos : Nat) (l : List Job) :
    (pendingJobs (updatePositionsGo pos l)).length = (pendingJobs l).length := by
  have h := congrArg List.length (pendingJobs_updatePositionsGo pos l)
  simpa [List.length_map] using h

theorem posOk_updatePositions (l : List Job) : PosOk (updatePositions l) := by
  constructor
  · rw [updatePositions, pendingJobs_updatePositionsGo, pendingJobs_updatePositionsGo_length]
  · exact fun j hj hnp => updatePositionsGo_nonpending j hj hnp

theorem posOk_scheduleNext {s : QState} (h : PosOk s.jobs) : PosOk (scheduleNext s).jobs := by
  by_cases hcap : s.maxConcurrent ≤ s.running
  · simpa [scheduleNext, if_pos hcap] using h
  · cases hnp : nextPendingJob s.jobs with
    | none => simpa [scheduleNext, if_neg hcap, hnp] using h
    | some j =>
      simp only [scheduleNext, if_neg hcap, hnp]
      exact posOk_updatePositions _

theorem pendingJobs_setJobIn (l : List Job) (id : Nat) (upd : Job → Job)
    (h : ∀ j ∈ l, j.id = id → j.status ≠ JobStatus.pending ∧ (upd j).status ≠ JobStatus.pending) :
    pendingJobs (setJobIn l id upd) = pendingJobs l := by
  induction l with
  | nil => rfl
  | cons j rest ih =>
    have hrest : ∀ j0 ∈ rest, j0.id = id →
        j0.status ≠ JobStatus.pending ∧ (upd j0).status ≠ JobStatus.pending :=
      fun j0 h0 => h j0 (List.mem_cons_of_mem _ h0)
    by_cases hid : j.id = id
    · obtain ⟨hp1, hp2⟩ := h j (by simp) hid
      rw [setJobIn, List.map_cons, if_pos hid, pendingJobs,
        List.filter_cons_of_neg (by simp [isPendingJob, hp2]), pendingJobs,
        List.filter_cons_of_neg (by simp [isPendingJob, hp1])]
      exact ih hrest
    · by_cases hp : isPendingJob j = true
      · rw [setJobIn, List.map_cons, if_neg hid, pendingJobs, List.filter_cons_of_pos hp,
          pendingJobs, List.filter_cons_of_pos hp]
        exact congrArg (List.cons j) (ih hrest)
      · rw [setJobIn, List.map_cons, if_neg hid, pendingJobs, List.filter_cons_of_neg hp,
          pendingJobs, List.filter_cons_of_neg hp]
        exact ih hrest

theorem posOk_finishInternal {s : QState} {id : Nat} {upd : Job → Job}
    (hInv : Inv s) (hpos : PosOk s.jobs)
    (hupd_pos : ∀ j, (upd j).position = j.position)
    (hupd_st : ∀ j, (upd j).status = JobStatus.done ∨ (upd j).status = JobStatus.error) :
    PosOk (finishInternal s id upd).jobs := by
  obtain ⟨_, _, _, _, h5, _, _, _⟩ := hInv
  by_cases hin : id ∈ s.inflight
  · simp only [finishInternal, if_pos hin]
    apply posOk_scheduleNext
    show PosOk (setJobIn s.jobs id upd)
    have hids : ∀ j ∈ s.jobs, j.id = id →
        j.status ≠ JobStatus.pending ∧ (upd j).status ≠ JobStatus.pending := by
      intro j hj hjid
      have hrun : j.status = JobStatus.running := (h5 j hj).mpr (hjid ▸ hin)
      refine ⟨by simp [hrun], ?_⟩
      rcases hupd_st j with hs | hs <;> simp [hs]
    constructor
    · rw [pendingJobs_setJobIn _ _ _ hids]
      exact hpos.1
    · intro j' hj' hnp
      obtain ⟨j0, hj0, he⟩ := mem_setJobIn hj'
      by_cases hid0 : j0.id = id
      · rw [if_pos hid0] at he
        rw [he, hupd_pos]
        have hrun : j0.status = JobStatus.running := (h5 j0 hj0).mpr (hid0 ▸ hin)
        exact hpos.2 j0 hj0 (by simp [hrun])
      · rw [if_neg hid0] at he
        rw [he]
        exact hpos.2 j0 hj0 (he ▸ hnp)
  · simpa [finishInternal, if_neg hin] using hpos

theorem posOk_applyEvent {s : QState} {e : Event} (hInv : Inv s) (hpos : PosOk s.jobs)
    (hnc : isCleanupEvent e = false) : PosOk (applyEvent s e).jobs := by
  cases e with
  | enqueue files =>
    show PosOk (scheduleNext _).jobs
    apply posOk_scheduleNext
    exact posOk_updatePositions _
  | finish id conv =>
    exact posOk_finishInternal hInv hpos (fun j => applyRun_pos j conv)
      (fun j => applyRun_terminal j conv)
  | finishExn id msg =>
    exact posOk_finishInternal hInv hpos (fun j => rfl) (fun j => Or.inr rfl)
  | cleanup id => simp [isCleanupEvent] at hnc

theorem posOk_applyEvents : ∀ (es : List Event) (s : QState), Inv s → PosOk s.jobs →
    (∀ e ∈ es, isCleanupEvent e = false) → PosOk (applyEvents s es).jobs
  | [], _, _, hpos, _ => hpos
  | e :: es, s, hInv, hpos, hnc =>
    posOk_applyEvents es _ (inv_applyEvent hInv e)
      (posOk_applyEvent hInv hpos (hnc e (by simp)))
      (fun e2 h2 => hnc e2 (List.mem_cons_of_mem _ h2))

theorem posOk_initState (k : Nat) : PosOk (initState k).jobs :=
  ⟨rfl, fun _ h => absurd h (List.not_mem_nil _)⟩

/-! ## Claim theorems -/

/-- C1: in every reachable state of the conversion queue, under any sequence
of enqueue, job-completion and cleanup events, the number of jobs with
status `running` — and likewise the scheduler's `running` counter — is at
most the configured concurrency budget `maxConcurrent`. -/
theorem c1_running_le_maxConcurrent (s : QState) (h : Reachable s) :
    runningCount s.jobs ≤ s.maxConcurrent ∧ s.running ≤ s.maxConcurrent := by
  have hInv := inv_of_reachable h
  have hcount := runningCount_le_running hInv
  obtain ⟨h1, _⟩ := hInv
  exact ⟨le_trans hcount h1, h1⟩

/-- Witness for C1 at the state reached by two enqueues under budget 1. -/
theorem c1_witness :
    runningCount (applyEvents (initState 1) [Event.enqueue [], Event.enqueue []]).jobs
        ≤ (applyEvents (initState 1) [Event.enqueue [], Event.enqueue []]).maxConcurrent
      ∧ (applyEvents (initState 1) [Event.enqueue [], Event.enqueue []]).running
        ≤ (applyEvents (initState 1) [Event.enqueue [], Event.enqueue []]).maxConcurrent :=
  c1_running_le_maxConcurrent _ ⟨1, [Event.enqueue [], Event.enqueue []], rfl⟩

/-- C3 (counterexample): the claim fails for removal events.  With budget 1,
after three enqueues (one running, two pending with positions 1 and 2),
cleaning up the pending job with position 1 leaves the remaining pending
job holding position 2 while the pending count is 1: `cleanup` does not
recompute positions. -/
theorem c3_counterexample :
    ¬ PosOk (applyEvents (initState 1)
      [Event.enqueue [], Event.enqueue [], Event.enqueue [], Event.cleanup 1]).jobs := by
  intro h
  exact absurd h.1 (by decide)

/-- C3 (amended): after every insertion (enqueue) and start-of-run
(admission), and after job completions — that is, along any event sequence
that contains no cleanup — the pending jobs hold the positions
`1, …, pendingCount` in creation order with no gaps or duplicates, and
non-pending jobs hold no position.  A cleanup, by contrast, removes the
record without recomputing the positions of the remaining pending jobs. -/
theorem c3_positions_no_cleanup (k : Nat) (es : List Event)
    (h : ∀ e ∈ es, isCleanupEvent e = false) :
    PosOk (applyEvents (initState k) es).jobs :=
  posOk_applyEvents es _ (inv_initState k) (posOk_initState k) h

/-- Witness for C3 on a cleanup-free trace of three enqueues under budget 1. -/
theorem c3_witness :
    PosOk (applyEvents (initState 1)
      [Event.enqueue [], Event.enqueue [], Event.enqueue []]).jobs :=
  c3_positions_no_cleanup 1 [Event.enqueue [], Event.enqueue [], Event.enqueue []] (by decide)

/-- C4: executing a job attempts each supported staged file exactly once in
order — the outputs are exactly the successful conversions in input order,
so one failed file never prevents later files from being attempted — and
when all files have been attempted the status is `done` exactly when some
output was produced and `error` with the summary message otherwise.
Concretely, 3 staged files with 2 successes and 1 failure give status
`done` with 2 outputs. -/
theorem c4_run_semantics (job : Job) (conv : List String → Bool) :
    (applyRun job conv).outputPaths
        = job.outputPaths
          ++ ((inputFilesOf job).filter fun f => conv (joinPath job.tempDir f)).map
            (outPathOf job.tempDir)
    ∧ (applyRun job conv).status
        = (if runLoop job.tempDir conv (inputFilesOf job) job.outputPaths = []
           then JobStatus.error else JobStatus.done)
    ∧ (applyRun job conv).errorMsg
        = (if runLoop job.tempDir conv (inputFilesOf job) job.outputPaths = []
           then some "All conversions failed." else job.errorMsg)
    ∧ (applyRun exJob3 exConv3).status = JobStatus.done
    ∧ (applyRun exJob3 exConv3).outputPaths.length = 2 := by
  refine ⟨?_, ?_, ?_, by decide, by decide⟩
  · simp only [applyRun]
    split <;> exact runLoop_eq _ _ _ _
  · simp only [applyRun]
    split <;> rfl
  · simp only [applyRun]
    split <;> rfl

/-- C6: cleanup is idempotent — on any state, a second cleanup of the same
job id leaves the queue state exactly as after the first and reclaims no
workspace (and, the model being total, raises no error). -/
theorem c6_cleanup_idempotent (s : QState) (id : Nat) :
    cleanup (cleanup s id).1 id = ((cleanup s id).1, none) := by
  cases hf : s.jobs.find? (byId id) with
  | none =>
    simp only [cleanup, hf]
  | some j =>
    have hnone : ((s.jobs.filter fun j2 => !byId id j2).find? (byId id)) = none :=
      List.find?_eq_none.mpr fun x hx => by
        have hkeep := List.of_mem_filter hx
        simp only [byId, Bool.not_eq_true', decide_eq_false_iff_not] at hkeep
        simp [byId, hkeep]
    simp only [cleanup, hf, hnone]

/-- C7: a lookup of an id from which a job was removed by cleanup and a
lookup of an id that was never issued return the same not-found result
(`none`), so the two cases are indistinguishable to the caller. -/
theorem c7_notfound_uniform (s t : QState) (id : Nat) (h : ∀ j ∈ t.jobs, j.id ≠ id) :
    getJob (cleanup s id).1 id = none ∧ getJob t id = none
    ∧ getJob (cleanup s id).1 id = getJob t id := by
  have ht : getJob t id = none :=
    List.find?_eq_none.mpr fun x hx => by simp [byId, h x hx]
  have hc : getJob (cleanup s id).1 id = none := by
    cases hf : s.jobs.find? (byId id) with
    | none =>
      simp only [cleanup, hf]
      exact hf
    | some j =>
      simp only [cleanup, hf]
      exact List.find?_eq_none.mpr fun x hx => by
        have hkeep := List.of_mem_filter hx
        simp only [byId, Bool.not_eq_true', decide_eq_false_iff_not] at hkeep
        simp [byId, hkeep]
  exact ⟨hc, ht, hc.trans ht.symm⟩

/-- Witness for C7: a cleaned-up id and the same id in a fresh queue. -/
theorem c7_witness :
    getJob (cleanup (applyEvents (initState 1) [Event.enqueue []]) 0).1 0 = none
    ∧ getJob (initState 1) 0 = none
    ∧ getJob (cleanup (applyEvents (initState 1) [Event.enqueue []]) 0).1 0
        = getJob (initState 1) 0 :=
  c7_notfound_uniform (applyEvents (initState 1) [Event.enqueue []]) (initState 1) 0 (by decide)

/-- C2: strict FIFO admission.  If the job list is `l1 ++ A :: l2 ++ B :: l3`
with `A` enqueued before `B` and both still pending, then an admission pass
never starts `B`: after `_scheduleNext`, `B` is still pending (the pass
admits the oldest pending job, which lies at or before `A`).  Hence among
pending jobs, start order is enqueue order. -/
theorem c2_fifo_admission (s : QState) (l1 l2 l3 : List Job) (A B : Job)
    (hjobs : s.jobs = l1 ++ A :: (l2 ++ B :: l3))
    (hA : A.status = JobStatus.pending) (hB : B.status = JobStatus.pending)
    (hnd : (s.jobs.map fun j => j.id).Nodup) :
    Option.map (fun j => j.status) (getJob (scheduleNext s) B.id)
      = some JobStatus.pending := by
  have hsplit : s.jobs = (l1 ++ [A]) ++ (l2 ++ B :: l3) := by
    rw [hjobs]
    simp
  have hndPair := hnd
  rw [hsplit, List.map_append, List.nodup_append] at hndPair
  have hdisj : ∀ x ∈ l1 ++ [A], x.id ≠ B.id := by
    intro x hx he
    have hx2 : x.id ∈ (l1 ++ [A]).map (fun j => j.id) := List.mem_map.mpr ⟨x, hx, rfl⟩
    have hB2 : x.id ∈ (l2 ++ B :: l3).map (fun j => j.id) := by
      rw [he]
      exact List.mem_map.mpr ⟨B, by simp, rfl⟩
    exact hndPair.2.2 hx2 hB2
  have hgetB : s.jobs.find? (byId B.id) = some B := by
    rw [hsplit]
    rw [find?_append_of_none (byId B.id) (l2 ++ B :: l3)
      (List.find?_eq_none.mpr fun x hx => by
        simp only [byId, decide_eq_true_eq]
        exact hdisj x hx)]
    exact find?_byId_of_mem_nodup hndPair.2.1 (by simp)
  by_cases hcap : s.maxConcurrent ≤ s.running
  · simp only [scheduleNext, if_pos hcap, getJob, hgetB]
    simp [hB]
  · obtain ⟨jj, hjj, hjjmem⟩ :=
      find?_first_in isPendingJob l1 A (l2 ++ B :: l3) (by simp [isPendingJob, hA])
    have hnp : nextPendingJob s.jobs = some jj := by
      rw [nextPendingJob, hjobs]
      exact hjj
    have hjjne : ¬ B.id = jj.id := fun hc => hdisj jj hjjmem hc.symm
    simp only [scheduleNext, if_neg hcap, hnp, getJob]
    obtain ⟨p, hp⟩ := find?_byId_updatePositionsGo B.id 1 (setJobIn s.jobs jj.id
      (fun j0 => { j0 with status := JobStatus.running, position := none }))
    simp only [updatePositions]
    rw [hp, find?_byId_setJobIn s.jobs jj.id
      (fun j0 => { j0 with status := JobStatus.running, position := none })
      (fun j0 => rfl) B.id, hgetB]
    simp [hjjne, hB]

/-- Witness for C2 at the three-enqueue state under budget 1: the pending
job with id 2 stays pending across an admission pass. -/
theorem c2_witness :
    Option.map (fun j => j.status)
      (getJob (scheduleNext (applyEvents (initState 1)
        [Event.enqueue [], Event.enqueue [], Event.enqueue []])) 2)
      = some JobStatus.pending :=
  c2_fifo_admission
    (applyEvents (initState 1) [Event.enqueue [], Event.enqueue [], Event.enqueue []])
    [{ id := 0, status := JobStatus.running, position := none, tempDir := tempDirOf 0,
       stagedFiles := [], outputPaths := [], errorMsg := none }] [] []
    { id := 1, status := JobStatus.pending, position := some 1, tempDir := tempDirOf 1,
      stagedFiles := [], outputPaths := [], errorMsg := none }
    { id := 2, status := JobStatus.pending, position := some 2, tempDir := tempDirOf 2,
      stagedFiles := [], outputPaths := [], errorMsg := none }
    (by decide) rfl rfl (by decide)

/-- C5: an exception thrown during a job's execution is caught at the
per-job boundary (the model of the `catch` branch followed by `.finally`):
only that job's record turns to status `error` with the exception message,
the running counter is decremented and the drain runs, so the oldest
pending job is admitted at once (the counter ends unchanged here because
the freed slot is immediately reused), and the failed execution's slot is
released.  The event application is total, so nothing propagates out of
the scheduler. -/
theorem c5_exception_isolation (s : QState) (id : Nat) (msg : String) (B : Job)
    (hInv : Inv s) (hin : id ∈ s.inflight)
    (hnext : nextPendingJob s.jobs = some B) :
    Option.map (fun j => (j.status, j.errorMsg))
        (getJob (applyEvent s (Event.finishExn id msg)) id)
      = Option.map (fun _ => (JobStatus.error, some msg)) (getJob s id)
    ∧ Option.map (fun j => j.status) (getJob (applyEvent s (Event.finishExn id msg)) B.id)
      = some JobStatus.running
    ∧ (applyEvent s (Event.finishExn id msg)).running = s.running
    ∧ id ∉ (applyEvent s (Event.finishExn id msg)).inflight := by
  obtain ⟨h1, h2, h3, h4, h5, h6, h7, h8⟩ := hInv
  have hpos : 0 < s.inflight.length := List.length_pos.mpr (List.ne_nil_of_mem hin)
  have hrun1 : 1 ≤ s.running := by omega
  have hidnp : ∀ j ∈ s.jobs, j.id = id →
      j.status ≠ JobStatus.pending ∧ (applyRunExn j msg).status ≠ JobStatus.pending := by
    intro j hj hjid
    have hr : j.status = JobStatus.running := (h5 j hj).mpr (hjid ▸ hin)
    exact ⟨by simp [hr], by simp [applyRunExn]⟩
  have hBmem : B ∈ s.jobs := List.mem_of_find?_eq_some hnext
  have hBpend : B.status = JobStatus.pending := by
    simpa [isPendingJob] using List.find?_some hnext
  have hBne : ¬ B.id = id := fun hc => (hidnp B hBmem hc).1 hBpend
  have hne2 : ¬ (id = B.id) := fun hc => hBne hc.symm
  have hnext1 : nextPendingJob (setJobIn s.jobs id (fun j => applyRunExn j msg)) = some B := by
    rw [nextPendingJob, find?_isPending_setJobIn _ _ _ hidnp]
    exact hnext
  have hcap2 : ¬ (s.maxConcurrent ≤ s.running - 1) := by omega
  simp only [applyEvent, finishInternal, if_pos hin, scheduleNext, if_neg hcap2, hnext1]
  refine ⟨?_, ?_, ?_, ?_⟩
  · simp only [getJob, updatePositions]
    obtain ⟨p, hp⟩ := find?_byId_updatePositionsGo id 1
      (setJobIn (setJobIn s.jobs id (fun j => applyRunExn j msg)) B.id
        (fun j0 => { j0 with status := JobStatus.running, position := none }))
    rw [hp,
      find?_byId_setJobIn (setJobIn s.jobs id (fun j => applyRunExn j msg)) B.id
        (fun j0 => { j0 with status := JobStatus.running, position := none })
        (fun j0 => rfl) id,
      find?_byId_setJobIn s.jobs id (fun j => applyRunExn j msg)
        (fun j0 => rfl) id]
    cases hpres : s.jobs.find? (byId id) with
    | none => simp
    | some j0 =>
      have hj0id : j0.id = id := by
        simpa [byId] using List.find?_some hpres
      simp [applyRunExn, hj0id, hne2]
  · simp only [getJob, updatePositions]
    obtain ⟨p2, hp2⟩ := find?_byId_updatePositionsGo B.id 1
      (setJobIn (setJobIn s.jobs id (fun j => applyRunExn j msg)) B.id
        (fun j0 => { j0 with status := JobStatus.running, position := none }))
    rw [hp2,
      find?_byId_setJobIn (setJobIn s.jobs id (fun j => applyRunExn j msg)) B.id
        (fun j0 => { j0 with status := JobStatus.running, position := none })
        (fun j0 => rfl) B.id,
      find?_byId_setJobIn s.jobs id (fun j => applyRunExn j msg)
        (fun j0 => rfl) B.id,
      find?_byId_of_mem_nodup h4 hBmem]
    simp [applyRunExn, hBne]
  · dsimp only
    omega
  · intro hmem
    rcases List.mem_cons.mp hmem with he | hm2
    · exact hne2 he
    · exact absurd ((List.Nodup.mem_erase_iff h3).mp hm2).1 (by simp)

/-- Witness for C5: job 0 running and job 1 pending under budget 1; an
exception on job 0 yields an errored job 0, a running job 1, and a freed
slot. -/
theorem c5_witness :
    Option.map (fun j => (j.status, j.errorMsg))
        (getJob (applyEvent exStateA (Event.finishExn 0 "boom")) 0)
      = Option.map (fun _ => (JobStatus.error, some "boom")) (getJob exStateA 0)
    ∧ Option.map (fun j => j.status)
        (getJob (applyEvent exStateA (Event.finishExn 0 "boom")) 1)
      = some JobStatus.running
    ∧ (applyEvent exStateA (Event.finishExn 0 "boom")).running = exStateA.running
    ∧ 0 ∉ (applyEvent exStateA (Event.finishExn 0 "boom")).inflight :=
  c5_exception_isolation exStateA 0 "boom" exPendingJob
    (by unfold Inv; decide) (by decide) (by decide)

/-- C8 (counterexample): the staging write path of `enqueue` is
`path.join(tempDir, f.name)` with no sanitisation in the queue itself, so
a file name containing `..` escapes the job's workspace: for job 0 the
name `../evil.pptx` is written to `tmp/evil.pptx`, outside
`tmp/pptx-job-0`.  The claim that a staged file's name can never produce
a path outside the job's workspace therefore fails on the core. -/
theorem c8_counterexample :
    joinPath (tempDirOf 0) "../evil.pptx" = ["tmp", "evil.pptx"]
    ∧ hasPrefixComps (tempDirOf 0) (joinPath (tempDirOf 0) "../evil.pptx") = false := by
  constructor <;> decide

/-- C8 (amended): in every reachable state, the workspaces of two jobs with
distinct ids never overlap (neither contains the other); and for any file
name free of path separators and not a dot-component — in particular every
name admitted by the upload layer's allow-list, which rejects separators
and requires a `.ppt`/`.pptx` ending — the staged path `join(tempDir, name)`
stays inside the job's own workspace.  The queue itself does not sanitise
names: a name containing `..` escapes (see the counterexample), so the
in-workspace half holds only for separator-free names. -/
theorem c8_workspace_isolation (s : QState) (hs : Reachable s) (j1 j2 : Job)
    (hm1 : j1 ∈ s.jobs) (hm2 : j2 ∈ s.jobs) (hne : j1.id ≠ j2.id)
    (name : String) (hn : ∀ c ∈ name.data, c ≠ '/')
    (hn0 : name ≠ "") (hn1 : name ≠ ".") (hn2 : name ≠ "..") :
    dirsOverlap j1.tempDir j2.tempDir = false
    ∧ joinPath j1.tempDir name = j1.tempDir ++ [name]
    ∧ hasPrefixComps j1.tempDir (joinPath j1.tempDir name) = true := by
  obtain ⟨_, _, _, _, _, _, _, h8⟩ := inv_of_reachable hs
  have hd1 := h8 j1 hm1
  have hd2 := h8 j2 hm2
  refine ⟨?_, ?_, ?_⟩
  · rw [hd1, hd2]
    exact tempDirOf_no_overlap hne
  · rw [hd1]
    exact joinPath_simple _ _ hn hn0 hn1 hn2
  · rw [hd1, joinPath_simple _ _ hn hn0 hn1 hn2]
    exact hasPrefixComps_self_append _ _

/-- Witness for C8: the two jobs of a two-enqueue state under budget 2 and
the benign file name `deck.pptx`. -/
theorem c8_witness :
    dirsOverlap
        (tempDirOf 0) (tempDirOf 1) = false
    ∧ joinPath (tempDirOf 0) "deck.pptx" = tempDirOf 0 ++ ["deck.pptx"]
    ∧ hasPrefixComps (tempDirOf 0) (joinPath (tempDirOf 0) "deck.pptx") = true :=
  c8_workspace_isolation
    (applyEvents (initState 2) [Event.enqueue [], Event.enqueue []])
    ⟨2, [Event.enqueue [], Event.enqueue []], rfl⟩
    { id := 0, status := JobStatus.running, position := none, tempDir := tempDirOf 0,
      stagedFiles := [], outputPaths := [], errorMsg := none }
    { id := 1, status := JobStatus.running, position := none, tempDir := tempDirOf 1,
      stagedFiles := [], outputPaths := [], errorMsg := none }
    (by decide) (by decide) (by decide) "deck.pptx" (by decide)
    (by decide) (by decide) (by decide)

/-- C9: a job with no staged file of a supported extension is still
enqueued and its id returned immediately (for any staged list); executing
it attempts nothing, so it ends with status `error`, message
`All conversions failed.` and empty outputs; and its completion still
releases the concurrency slot (the finished execution leaves `inflight`,
also across the drain). -/
theorem c9_unconvertible_job (s : QState) (files : List String) (job : Job)
    (conv : List String → Bool) (id : Nat)
    (hjob : inputFilesOf job = []) (hout : job.outputPaths = [])
    (hin : id ∈ s.inflight) (hnd : s.inflight.Nodup) :
    (enqueue s files).2 = s.nextId
    ∧ applyRun job conv
        = { job with status := JobStatus.error, errorMsg := some "All conversions failed.", outputPaths := [] }
    ∧ id ∉ (applyEvent s (Event.finish id conv)).inflight := by
  refine ⟨rfl, ?_, ?_⟩
  · simp [applyRun, hjob, hout, runLoop]
  · simp only [applyEvent, finishInternal, if_pos hin]
    by_cases hcap : s.maxConcurrent ≤ s.running - 1
    · simp only [scheduleNext, if_pos hcap]
      intro hmem
      exact absurd ((List.Nodup.mem_erase_iff hnd).mp hmem).1 (by simp)
    · cases hnp : nextPendingJob (setJobIn s.jobs id (fun j => applyRun j conv)) with
      | none =>
        simp only [scheduleNext, if_neg hcap, hnp]
        intro hmem
        exact absurd ((List.Nodup.mem_erase_iff hnd).mp hmem).1 (by simp)
      | some pjob =>
        simp only [scheduleNext, if_neg hcap, hnp]
        intro hmem
        rcases List.mem_cons.mp hmem with he | hm2
        · have hpmem := List.mem_of_find?_eq_some hnp
          have hppend : pjob.status = JobStatus.pending := by
            simpa [isPendingJob] using List.find?_some hnp
          obtain ⟨j0, hj0, hj0e⟩ := mem_setJobIn hpmem
          by_cases hji : j0.id = id
          · rw [if_pos hji] at hj0e
            rcases applyRun_terminal j0 conv with hs | hs <;>
              rw [hj0e, hs] at hppend <;> cases hppend
          · rw [if_neg hji] at hj0e
            rw [hj0e] at he
            exact hji he.symm
        · exact absurd ((List.Nodup.mem_erase_iff hnd).mp hm2).1 (by simp)

/-- Witness for C9: a job whose only staged file is `notes.txt`, and the
completion of job 0 in the two-enqueue state under budget 1. -/
theorem c9_witness :
    (enqueue exStateA []).2 = exStateA.nextId
    ∧ applyRun exJobText (fun _ => true)
        = { exJobText with status := JobStatus.error, errorMsg := some "All conversions failed.", outputPaths := [] }
    ∧ 0 ∉ (applyEvent exStateA (Event.finish 0 (fun _ => true))).inflight :=
  c9_unconvertible_job exStateA [] exJobText (fun _ => true) 0
    (by decide) (by decide) (by decide) (by decide)

theorem scheduleNext_nextId (t : QState) : (scheduleNext t).nextId = t.nextId := by
  by_cases hcap : t.maxConcurrent ≤ t.running
  · simp [scheduleNext, hcap]
  · cases hnp : nextPendingJob t.jobs <;> simp [scheduleNext, hcap, hnp]

theorem mem_scheduleNext_jobs {j' : Job} {t : QState} (h : j' ∈ (scheduleNext t).jobs) :
    ∃ j ∈ t.jobs, j'.id = j.id := by
  by_cases hcap : t.maxConcurrent ≤ t.running
  · simp only [scheduleNext, if_pos hcap] at h
    exact ⟨j', h, rfl⟩
  · cases hnp : nextPendingJob t.jobs with
    | none =>
      simp only [scheduleNext, if_neg hcap, hnp] at h
      exact ⟨j', h, rfl⟩
    | some jj =>
      simp only [scheduleNext, if_neg hcap, hnp] at h
      simp only [updatePositions] at h
      obtain ⟨j2, hj2, hid2, _, _⟩ := mem_updatePositionsGo h
      obtain ⟨j0, hj0, hj0e⟩ := mem_setJobIn hj2
      refine ⟨j0, hj0, ?_⟩
      rw [hid2, hj0e]
      by_cases hji : j0.id = jj.id <;> simp [hji]

theorem absentId_finishInternal {t : QState} {id0 : Nat} (fid : Nat) (upd : Job → Job)
    (hupd : ∀ j, (upd j).id = j.id)
    (h1 : ∀ j ∈ t.jobs, j.id ≠ id0) (h2 : id0 < t.nextId) :
    (∀ j ∈ (finishInternal t fid upd).jobs, j.id ≠ id0)
    ∧ id0 < (finishInternal t fid upd).nextId := by
  by_cases hin : fid ∈ t.inflight
  · simp only [finishInternal, if_pos hin]
    constructor
    · intro j' hj'
      obtain ⟨j2, hj2, hid2⟩ := mem_scheduleNext_jobs hj'
      obtain ⟨j0, hj0, hj0e⟩ := mem_setJobIn hj2
      have he : j2.id = j0.id := by
        rw [hj0e]
        by_cases hji : j0.id = fid <;> simp [hji, hupd]
      rw [hid2, he]
      exact h1 j0 hj0
    · rw [scheduleNext_nextId]
      exact h2
  · simp only [finishInternal, if_neg hin]
    exact ⟨h1, h2⟩

theorem absentId_applyEvent {t : QState} {id0 : Nat} (e : Event)
    (h1 : ∀ j ∈ t.jobs, j.id ≠ id0) (h2 : id0 < t.nextId) :
    (∀ j ∈ (applyEvent t e).jobs, j.id ≠ id0) ∧ id0 < (applyEvent t e).nextId := by
  cases e with
  | enqueue files =>
    constructor
    · intro j' hj'
      obtain ⟨j2, hj2, hid2⟩ := mem_scheduleNext_jobs hj'
      simp only [updatePositions] at hj2
      obtain ⟨j0, hj0, hid0, _, _⟩ := mem_updatePositionsGo hj2
      rw [hid2, hid0]
      rcases List.mem_append.mp hj0 with hold | hnew
      · exact h1 j0 hold
      · rw [List.mem_singleton] at hnew
        rw [hnew]
        dsimp only
        omega
    · show id0 < (scheduleNext _).nextId
      rw [scheduleNext_nextId]
      dsimp only
      omega
  | finish fid conv =>
    exact absentId_finishInternal fid _ (fun j => applyRun_id j conv) h1 h2
  | finishExn fid msg =>
    exact absentId_finishInternal fid _ (fun j => rfl) h1 h2
  | cleanup cid =>
    cases hf : t.jobs.find? (byId cid) with
    | none =>
      simp only [applyEvent, cleanup, hf]
      exact ⟨h1, h2⟩
    | some j =>
      simp only [applyEvent, cleanup, hf]
      exact ⟨fun j' hj' => h1 j' (List.mem_of_mem_filter hj'), h2⟩

theorem absentId_applyEvents {id0 : Nat} : ∀ (es : List Event) (t : QState),
    (∀ j ∈ t.jobs, j.id ≠ id0) → id0 < t.nextId → getJob (applyEvents t es) id0 = none
  | [], t, h1, _ => List.find?_eq_none.mpr fun x hx => by simp [byId, h1 x hx]
  | e :: es, t, h1, h2 =>
    absentId_applyEvents es _ (absentId_applyEvent e h1 h2).1 (absentId_applyEvent e h1 h2).2

/-- C10: cleanup accepts a job in any status, pending included: the record
is removed at once, and for every later event sequence a lookup of that id
reports not-found — in particular no later admission pass can select the
job and it never transitions to `running` (fresh ids are never reused, so
the id never reappears). -/
theorem c10_cleanup_removes_any_status (s : QState) (id : Nat) (h : id < s.nextId) :
    ∀ es, getJob (applyEvents (cleanup s id).1 es) id = none := by
  intro es
  apply absentId_applyEvents
  · cases hf : s.jobs.find? (byId id) with
    | none =>
      simp only [cleanup, hf]
      intro j hj he
      have := List.find?_eq_none.mp hf j hj
      simp [byId, he] at this
    | some j =>
      simp only [cleanup, hf]
      intro j2 hj2 he
      have := List.of_mem_filter hj2
      simp [byId, he] at this
  · cases hf : s.jobs.find? (byId id) with
    | none => simpa [cleanup, hf] using h
    | some j => simpa [cleanup, hf] using h

/-- Witness for C10: cleaning up the pending job 1 of the two-enqueue
state; after a further enqueue, the lookup still reports not-found. -/
theorem c10_witness :
    getJob (applyEvents (cleanup exStateA 1).1 [Event.enqueue []]) 1 = none :=
  c10_cleanup_removes_any_status exStateA 1 (by decide) [Event.enqueue []]

end PptxQueue
